import Mathlib

/-!
Verification model of `mongodb-queue` (`src/index.ts`).

A queue is a MongoDB collection of documents
`{_id, visible, payload, ack?, tries?, deleted?}`.  The embedding is a
shallow one:

* ISO-8601 timestamps compare lexicographically exactly as their instants
  compare chronologically, so `now()` / `nowPlusSecs` are modelled by a
  `Nat` number of seconds passed explicitly to each operation
  (`nowPlusSecs t d = t + d`).
* `_id` values are store-assigned and unique; they are modelled by a
  counter `nextId` so that ascending `_id` order is insertion order.
* An absent `tries` field sorts below every numeric value under
  `sort {tries: 1}` and `$inc` creates it with value 1, so `tries` is
  modelled as a `Nat` that is `0` while the field is absent.
* The `ack` lease tokens produced by `randomBytes(16)` are modelled as an
  oracle argument to `get`; the sparse unique index on `ack`
  (`createIndexes`) together with 128-bit randomness is modelled, where a
  claim needs it, by the hypothesis that the supplied token differs from
  every token stored in the state.
* The `deleted` field is written only as a timestamp and read with
  `deleted: null` (absent-or-null) and `deleted: {$exists: true}`; since
  the code never stores an explicit null it is an `Option Nat`.
* `findOneAndUpdate` is an atomic select-and-mutate returning the
  post-update document; it becomes a pure function from the state.
-/

namespace MQ

/-- A stored queue document (`QueueDocument` in `src/index.ts`), together
with its store-assigned `_id`. -/
structure Msg (P : Type) where
  id : Nat
  visible : Nat
  payload : P
  ack : Option Nat
  tries : Nat
  deleted : Option Nat
deriving Repr, DecidableEq

/-- The whole collection backing one queue: the documents in insertion
order plus the next store-assigned identifier. -/
structure QState (P : Type) where
  msgs : List (Msg P)
  nextId : Nat
deriving Repr, DecidableEq

/-- The collection before any operation has run. -/
def QState.empty (P : Type) : QState P := ⟨[], 0⟩

/-- Constructor options (`QueueOptions`). -/
structure QueueOptions where
  visibility : Option Nat := none
  delay : Option Nat := none
deriving Repr, DecidableEq

/-- Options of `add` (`QueueAddOptions`). -/
structure QueueAddOptions where
  delay : Option Nat := none
deriving Repr, DecidableEq

/-- Options of `get` (`QueueGetOptions`); `maxTimeMS` only bounds the
server-side execution time and has no effect on the result we model. -/
structure QueueGetOptions where
  visibility : Option Nat := none
  maxTimeMS : Option Nat := none
deriving Repr, DecidableEq

/-- Options of `ping` (`QueuePingOptions`). -/
structure QueuePingOptions where
  visibility : Option Nat := none
deriving Repr, DecidableEq

/-- The configured queue: `this.visibility` and `this.delay` as fixed by
the constructor. -/
structure Queue where
  visibility : Nat
  delay : Nat
deriving Repr, DecidableEq

/-- The constructor's option handling: `opts = opts || {}`,
`this.visibility = opts.visibility ?? 30`, `this.delay = opts.delay ?? 0`. -/
def Queue.ofOpts (opts : Option QueueOptions) : Queue :=
  { visibility := ((opts.getD {}).visibility).getD 30
    delay := ((opts.getD {}).delay).getD 0 }

/-- The filter `{deleted: null, visible: {$lte: now()}}` used by `get` and
by `size`: the message is claimable now. -/
def eligibleFilter (t : Nat) (m : Msg P) : Bool :=
  m.deleted.isNone && decide (m.visible ≤ t)

/-- The filter `{ack, visible: {$gt: now()}, deleted: null}` used by both
`ping` and `ack`: the message currently holds the live lease `tok`. -/
def leaseFilter (t tok : Nat) (m : Msg P) : Bool :=
  (m.ack == some tok) && decide (t < m.visible) && m.deleted.isNone

/-- The filter `{ack: {$exists: true}, visible: {$gt: now()}, deleted: null}`
used by `inFlight`. -/
def inFlightFilter (t : Nat) (m : Msg P) : Bool :=
  m.ack.isSome && decide (t < m.visible) && m.deleted.isNone

/-- The sort key `{tries: 1, _id: 1}` of `get`, as a strict comparison:
`a` sorts strictly before `b`. -/
def keyLt (a b : Msg P) : Bool :=
  decide (a.tries < b.tries) || ((a.tries == b.tries) && decide (a.id < b.id))

/-- One step of the selection under sort `{tries: 1, _id: 1}`: fold the
document `m` into the best candidate found so far. -/
def pickBetter (t : Nat) (m : Msg P) : Option (Msg P) → Option (Msg P)
  | none => if eligibleFilter t m then some m else none
  | some b => if eligibleFilter t m then (if keyLt b m then some b else some m) else some b

/-- The document `findOneAndUpdate` selects under sort `{tries: 1, _id: 1}`:
the eligible document that no other eligible document strictly precedes. -/
def pickMin (t : Nat) : List (Msg P) → Option (Msg P)
  | [] => none
  | m :: ms => pickBetter t m (pickMin t ms)

/-- Replace the (first) document whose `_id` is `i`. -/
def updateById (i : Nat) (f : Msg P → Msg P) : List (Msg P) → List (Msg P)
  | [] => []
  | m :: ms => if m.id = i then f m :: ms else m :: updateById i f ms

/-- A `findOneAndUpdate` without a sort: update the first document matching
the filter, returning the post-update document and the new collection. -/
def findAndUpdate (p : Msg P → Bool) (f : Msg P → Msg P) :
    List (Msg P) → Option (Msg P) × List (Msg P)
  | [] => (none, [])
  | m :: ms =>
    if p m then (some (f m), f m :: ms)
    else
      let r := findAndUpdate p f ms
      (r.1, m :: r.2)

/-- The external representation `get` returns on success
(`{id, ack, payload, tries}` destructured from the post-update document). -/
structure GetResult (P : Type) where
  id : Nat
  ack : Option Nat
  payload : P
  tries : Nat
deriving Repr, DecidableEq

/-- The visibility `get` uses: `opts?.visibility ?? this.visibility`. -/
def Queue.getVisibility (q : Queue) (opts : Option QueueGetOptions) : Nat :=
  (opts.bind QueueGetOptions.visibility).getD q.visibility

/-- The visibility `ping` uses: `opts?.visibility ?? this.visibility`. -/
def Queue.pingVisibility (q : Queue) (opts : Option QueuePingOptions) : Nat :=
  (opts.bind QueuePingOptions.visibility).getD q.visibility

/-- The delay `add` uses: `opts?.delay ?? this.delay`. -/
def Queue.addDelay (q : Queue) (opts : Option QueueAddOptions) : Nat :=
  (opts.bind QueueAddOptions.delay).getD q.delay

/-- The update `get` applies in its atomic step:
`$inc: {tries: 1}` and `$set: {ack: id(), visible: nowPlusSecs(visibility)}`. -/
def applyGetUpdate (t vis tok : Nat) (m : Msg P) : Msg P :=
  { m with tries := m.tries + 1, ack := some tok, visible := t + vis }

/-- `Queue.add`: insert a fresh document with
`visible = delay ? nowPlusSecs(delay) : now()` and only the `visible` and
`payload` fields set; return the inserted id. -/
def Queue.add (q : Queue) (s : QState P) (t : Nat) (payload : P)
    (opts : Option QueueAddOptions) : Nat × QState P :=
  let delay := q.addDelay opts
  let visible := if delay ≠ 0 then t + delay else t
  (s.nextId,
   { msgs := s.msgs ++
       [{ id := s.nextId, visible := visible, payload := payload,
          ack := none, tries := 0, deleted := none }]
     nextId := s.nextId + 1 })

/-- `Queue.get`: atomically claim the oldest available message.  The token
`tok` stands for the freshly generated `id()` string. -/
def Queue.get (q : Queue) (s : QState P) (t : Nat) (opts : Option QueueGetOptions)
    (tok : Nat) : Option (GetResult P) × QState P :=
  let visibility := q.getVisibility opts
  match pickMin t s.msgs with
  | none => (none, s)
  | some m =>
    let m2 := applyGetUpdate t visibility tok m
    (some { id := m2.id, ack := m2.ack, payload := m2.payload, tries := m2.tries },
     { s with msgs := updateById m.id (applyGetUpdate t visibility tok) s.msgs })

/-- `Queue.ping`: extend the live lease `tok` by setting
`visible = nowPlusSecs(visibility)`; `none` models the thrown
`Unidentified ack` error. -/
def Queue.ping (q : Queue) (s : QState P) (t tok : Nat)
    (opts : Option QueuePingOptions) : Option Nat × QState P :=
  let visibility := q.pingVisibility opts
  let r := findAndUpdate (leaseFilter t tok) (fun m => { m with visible := t + visibility }) s.msgs
  (r.1.map Msg.id, { s with msgs := r.2 })

/-- `Queue.ack`: complete the message holding the live lease `tok` by
setting `deleted = now()`; `none` models the thrown `Unidentified ack`
error. -/
def Queue.ack (s : QState P) (t tok : Nat) : Option Nat × QState P :=
  let r := findAndUpdate (leaseFilter t tok) (fun m => { m with deleted := some t }) s.msgs
  (r.1.map Msg.id, { s with msgs := r.2 })

/-- `Queue.clean`: `deleteMany {deleted: {$exists: true}}`. -/
def Queue.clean (s : QState P) : QState P :=
  { s with msgs := s.msgs.filter (fun m => !m.deleted.isSome) }

/-- `Queue.total`: `countDocuments()` with no filter. -/
def Queue.total (s : QState P) : Nat := s.msgs.length

/-- `Queue.size`: count of `{deleted: null, visible: {$lte: now()}}`. -/
def Queue.size (s : QState P) (t : Nat) : Nat :=
  (s.msgs.filter (eligibleFilter t)).length

/-- `Queue.inFlight`: count of
`{ack: {$exists: true}, visible: {$gt: now()}, deleted: null}`. -/
def Queue.inFlight (s : QState P) (t : Nat) : Nat :=
  (s.msgs.filter (inFlightFilter t)).length

/-- `Queue.done`: count of `{deleted: {$exists: true}}`. -/
def Queue.done (s : QState P) : Nat :=
  (s.msgs.filter (fun m => m.deleted.isSome)).length

/-- The token `tok` is not stored on any document: what the sparse unique
index on `ack` plus 128 bits of randomness guarantee of the token a
successful `get` installs. -/
def freshTok (s : QState P) (tok : Nat) : Bool :=
  s.msgs.all (fun m => m.ack != some tok)

/-- One operation of the queue against the store.  The `get` step carries
the freshness of its generated token (see `freshTok`). -/
inductive Step (q : Queue) : QState P → QState P → Prop where
  | add (s : QState P) (t : Nat) (payload : P) (opts : Option QueueAddOptions) :
      Step q s (q.add s t payload opts).2
  | get (s : QState P) (t : Nat) (opts : Option QueueGetOptions) (tok : Nat) :
      freshTok s tok = true → Step q s (q.get s t opts tok).2
  | ping (s : QState P) (t tok : Nat) (opts : Option QueuePingOptions) :
      Step q s (q.ping s t tok opts).2
  | ack (s : QState P) (t tok : Nat) :
      Step q s (Queue.ack s t tok).2
  | clean (s : QState P) :
      Step q s (Queue.clean s)

/-- Every state some sequence of operations can turn `s` into. -/
def ReachableFrom (q : Queue) (s s2 : QState P) : Prop :=
  Relation.ReflTransGen (Step q) s s2

/-- Every state reachable from the empty collection. -/
def Reachable (q : Queue) (s : QState P) : Prop :=
  ReachableFrom q (QState.empty P) s

end MQ

namespace MQ

section Lemmas

variable {P : Type}

theorem keyLt_irrefl (a : Msg P) : keyLt a a = false := by
  simp [keyLt]

theorem keyLt_asymm {a b : Msg P} (h : keyLt a b = true) : keyLt b a = false := by
  simp only [keyLt, Bool.or_eq_true, Bool.and_eq_true, decide_eq_true_eq, beq_iff_eq,
    Bool.or_eq_false_iff, Bool.and_eq_false_iff, decide_eq_false_iff_not, beq_eq_false_iff_ne] at *
  omega

theorem keyLt_false_trans {a b c : Msg P} (hab : keyLt a b = false) (hbc : keyLt b c = false) :
    keyLt a c = false := by
  simp only [keyLt, Bool.or_eq_false_iff, Bool.and_eq_false_iff, decide_eq_false_iff_not,
    beq_eq_false_iff_ne] at *
  omega

theorem pickMin_mem {t : Nat} {l : List (Msg P)} {m : Msg P} (h : pickMin t l = some m) :
    m ∈ l ∧ eligibleFilter t m = true := by
  induction l generalizing m with
  | nil => simp [pickMin] at h
  | cons a l ih =>
    rw [pickMin] at h
    cases hp : pickMin t l with
    | none =>
      rw [hp, pickBetter] at h
      by_cases he : eligibleFilter t a = true
      · rw [if_pos he] at h
        injection h with h
        subst h
        exact ⟨List.mem_cons_self a l, he⟩
      · rw [if_neg he] at h
        exact Option.noConfusion h
    | some b =>
      rw [hp, pickBetter] at h
      have hb := ih hp
      by_cases he : eligibleFilter t a = true
      · rw [if_pos he] at h
        by_cases hk : keyLt b a = true
        · rw [if_pos hk] at h
          injection h with h
          subst h
          exact ⟨List.mem_cons_of_mem a hb.1, hb.2⟩
        · rw [if_neg hk] at h
          injection h with h
          subst h
          exact ⟨List.mem_cons_self a l, he⟩
      · rw [if_neg he] at h
        injection h with h
        subst h
        exact ⟨List.mem_cons_of_mem a hb.1, hb.2⟩

theorem pickMin_eq_none {t : Nat} {l : List (Msg P)} :
    pickMin t l = none ↔ ∀ m ∈ l, eligibleFilter t m = false := by
  induction l with
  | nil => simp [pickMin]
  | cons a l ih =>
    rw [pickMin]
    cases hp : pickMin t l with
    | none =>
      rw [pickBetter]
      by_cases he : eligibleFilter t a = true
      · rw [if_pos he]
        constructor
        · intro h; exact Option.noConfusion h
        · intro h; exact absurd (h a (List.mem_cons_self a l)) (by simp [he])
      · rw [if_neg he]
        constructor
        · intro _ m hm
          rcases List.mem_cons.mp hm with h1 | h1
          · subst h1; exact Bool.eq_false_iff.mpr he
          · exact (ih.mp hp) m h1
        · intro _; rfl
    | some b =>
      rw [pickBetter]
      have hb := pickMin_mem hp
      constructor
      · intro h
        by_cases he : eligibleFilter t a = true
        · rw [if_pos he] at h
          by_cases hk : keyLt b a = true
          · rw [if_pos hk] at h; exact Option.noConfusion h
          · rw [if_neg hk] at h; exact Option.noConfusion h
        · rw [if_neg he] at h; exact Option.noConfusion h
      · intro h
        exact absurd (h b (List.mem_cons_of_mem a hb.1)) (by simp [hb.2])

theorem pickMin_min {t : Nat} {l : List (Msg P)} {m : Msg P} (h : pickMin t l = some m) :
    ∀ x ∈ l, eligibleFilter t x = true → keyLt x m = false := by
  induction l generalizing m with
  | nil => simp [pickMin] at h
  | cons a l ih =>
    rw [pickMin] at h
    intro x hx hex
    cases hp : pickMin t l with
    | none =>
      rw [hp, pickBetter] at h
      have hall := pickMin_eq_none.mp hp
      by_cases he : eligibleFilter t a = true
      · rw [if_pos he] at h
        injection h with h
        subst h
        rcases List.mem_cons.mp hx with hxa | hxl
        · subst hxa; exact keyLt_irrefl x
        · exact absurd hex (by simp [hall x hxl])
      · rw [if_neg he] at h
        exact Option.noConfusion h
    | some b =>
      rw [hp, pickBetter] at h
      by_cases he : eligibleFilter t a = true
      · rw [if_pos he] at h
        by_cases hk : keyLt b a = true
        · rw [if_pos hk] at h
          injection h with h
          subst h
          rcases List.mem_cons.mp hx with hxa | hxl
          · subst hxa; exact keyLt_asymm hk
          · exact ih hp x hxl hex
        · rw [if_neg hk] at h
          injection h with h
          subst h
          rcases List.mem_cons.mp hx with hxa | hxl
          · subst hxa; exact keyLt_irrefl x
          · exact keyLt_false_trans (ih hp x hxl hex) (Bool.eq_false_iff.mpr hk)
      · rw [if_neg he] at h
        injection h with h
        subst h
        rcases List.mem_cons.mp hx with hxa | hxl
        · subst hxa; exact absurd hex (by simp [he])
        · exact ih hp x hxl hex

theorem mem_updateById {i : Nat} {f : Msg P → Msg P} {l : List (Msg P)} {x : Msg P}
    (hx : x ∈ updateById i f l) : x ∈ l ∨ ∃ y ∈ l, y.id = i ∧ x = f y := by
  induction l with
  | nil => simp [updateById] at hx
  | cons a l ih =>
    rw [updateById] at hx
    by_cases ha : a.id = i
    · simp [ha] at hx
      rcases hx with hx | hx
      · exact Or.inr ⟨a, by simp, ha, hx⟩
      · exact Or.inl (by simp [hx])
    · simp [ha] at hx
      rcases hx with hx | hx
      · exact Or.inl (by simp [hx])
      · rcases ih hx with h1 | ⟨y, hy, hyi, hyx⟩
        · exact Or.inl (by simp [h1])
        · exact Or.inr ⟨y, by simp [hy], hyi, hyx⟩

theorem updateById_append {i : Nat} {f : Msg P → Msg P} {l1 l2 : List (Msg P)} {m : Msg P}
    (h1 : ∀ z ∈ l1, z.id ≠ i) (hm : m.id = i) :
    updateById i f (l1 ++ m :: l2) = l1 ++ f m :: l2 := by
  induction l1 with
  | nil => simp [updateById, hm]
  | cons a l1 ih =>
    have ha : a.id ≠ i := h1 a (by simp)
    simp only [List.cons_append, updateById, ha, if_false]
    exact congrArg (a :: ·) (ih (fun z hz => h1 z (by simp [hz])))

theorem map_id_updateById {i : Nat} {f : Msg P → Msg P} (hf : ∀ m, (f m).id = m.id)
    (l : List (Msg P)) : (updateById i f l).map Msg.id = l.map Msg.id := by
  induction l with
  | nil => rfl
  | cons a l ih =>
    rw [updateById]
    by_cases ha : a.id = i
    · simp [ha, hf]
    · simp [ha, ih]

end Lemmas

end MQ

namespace MQ

section FindUpd

variable {P : Type}

theorem findAndUpdate_fst_none_iff {p : Msg P → Bool} {f : Msg P → Msg P} {l : List (Msg P)} :
    (findAndUpdate p f l).1 = none ↔ ∀ m ∈ l, p m = false := by
  induction l with
  | nil => simp [findAndUpdate]
  | cons a l ih =>
    rw [findAndUpdate]
    by_cases ha : p a = true
    · simp [ha]
    · simp only [ha, if_false]
      constructor
      · intro h m hm
        rcases List.mem_cons.mp hm with h1 | h1
        · subst h1; exact Bool.eq_false_iff.mpr ha
        · exact ih.mp h m h1
      · intro h
        exact ih.mpr (fun m hm => h m (List.mem_cons_of_mem a hm))

theorem findAndUpdate_none_snd {p : Msg P → Bool} {f : Msg P → Msg P} {l : List (Msg P)}
    (h : (findAndUpdate p f l).1 = none) : (findAndUpdate p f l).2 = l := by
  induction l with
  | nil => rfl
  | cons a l ih =>
    rw [findAndUpdate] at *
    by_cases ha : p a = true
    · simp [ha] at h
    · simp only [ha, if_false] at *
      exact congrArg (a :: ·) (ih h)

theorem findAndUpdate_some_spec {p : Msg P → Bool} {f : Msg P → Msg P} {l : List (Msg P)}
    {y : Msg P} (h : (findAndUpdate p f l).1 = some y) :
    ∃ l1 m l2, l = l1 ++ m :: l2 ∧ p m = true ∧ (∀ z ∈ l1, p z = false) ∧ y = f m ∧
      (findAndUpdate p f l).2 = l1 ++ f m :: l2 := by
  induction l generalizing y with
  | nil => simp [findAndUpdate] at h
  | cons a l ih =>
    rw [findAndUpdate] at h ⊢
    by_cases ha : p a = true
    · simp only [ha, if_true] at h ⊢
      injection h with h
      exact ⟨[], a, l, by simp, ha, by simp, h.symm, by simp⟩
    · simp only [ha, if_false] at h ⊢
      rcases ih h with ⟨l1, m, l2, hl, hm, hl1, hy, hsnd⟩
      exact ⟨a :: l1, m, l2, by simp [hl],
        hm, by
          intro z hz
          rcases List.mem_cons.mp hz with h1 | h1
          · subst h1; exact Bool.eq_false_iff.mpr ha
          · exact hl1 z h1,
        hy, by simp [hsnd]⟩

theorem mem_findAndUpdate_snd {p : Msg P → Bool} {f : Msg P → Msg P} {l : List (Msg P)}
    {x : Msg P} (hx : x ∈ (findAndUpdate p f l).2) : x ∈ l ∨ ∃ y ∈ l, x = f y := by
  induction l with
  | nil => simp [findAndUpdate] at hx
  | cons a l ih =>
    rw [findAndUpdate] at hx
    by_cases ha : p a = true
    · simp only [ha, if_true] at hx
      rcases List.mem_cons.mp hx with h1 | h1
      · exact Or.inr ⟨a, List.mem_cons_self a l, h1⟩
      · exact Or.inl (List.mem_cons_of_mem a h1)
    · simp only [ha, if_false] at hx
      rcases List.mem_cons.mp hx with h1 | h1
      · exact Or.inl (by simp [h1])
      · rcases ih h1 with h2 | ⟨y, hy, hyx⟩
        · exact Or.inl (List.mem_cons_of_mem a h2)
        · exact Or.inr ⟨y, List.mem_cons_of_mem a hy, hyx⟩

theorem map_id_findAndUpdate {p : Msg P → Bool} {f : Msg P → Msg P}
    (hf : ∀ m, (f m).id = m.id) (l : List (Msg P)) :
    ((findAndUpdate p f l).2).map Msg.id = l.map Msg.id := by
  induction l with
  | nil => rfl
  | cons a l ih =>
    rw [findAndUpdate]
    by_cases ha : p a = true
    · simp [ha, hf]
    · simp [ha, ih]

theorem freshTok_iff {s : QState P} {tok : Nat} :
    freshTok s tok = true ↔ ∀ m ∈ s.msgs, m.ack ≠ some tok := by
  simp [freshTok, List.all_eq_true]

end FindUpd

end MQ

namespace MQ

section Invariant

variable {P : Type}

/-- The state invariants every reachable collection satisfies: store-assigned
identifiers are below the counter and pairwise distinct; two documents
carrying the same lease token are the same document; a lease token is
present exactly on the documents that have been claimed at least once. -/
structure Inv (s : QState P) : Prop where
  idLt : ∀ m ∈ s.msgs, m.id < s.nextId
  idNodup : (s.msgs.map Msg.id).Nodup
  ackUniq : ∀ m1 ∈ s.msgs, ∀ m2 ∈ s.msgs, ∀ a : Nat,
    m1.ack = some a → m2.ack = some a → m1.id = m2.id
  ackTries : ∀ m ∈ s.msgs, (m.ack = none ↔ m.tries = 0)

theorem inv_empty : Inv (QState.empty P) := by
  constructor <;> simp [QState.empty]

theorem inv_add {q : Queue} {s : QState P} (h : Inv s) (t : Nat) (payload : P)
    (opts : Option QueueAddOptions) : Inv (q.add s t payload opts).2 := by
  constructor
  · intro m hm
    simp only [Queue.add, List.mem_append, List.mem_singleton] at hm
    rcases hm with hm | hm
    · exact Nat.lt_succ_of_lt (h.idLt m hm)
    · subst hm; exact Nat.lt_succ_self _
  · simp only [Queue.add, List.map_append, List.map_cons, List.map_nil]
    rw [List.nodup_append]
    refine ⟨h.idNodup, List.nodup_singleton _, ?_⟩
    intro x hx hx2
    simp only [List.mem_singleton] at hx2
    subst hx2
    rcases List.mem_map.mp hx with ⟨m, hm, hmx⟩
    exact Nat.lt_irrefl _ (hmx ▸ h.idLt m hm)
  · intro m1 hm1 m2 hm2 a ha1 ha2
    simp only [Queue.add, List.mem_append, List.mem_singleton] at hm1 hm2
    rcases hm1 with hm1 | hm1
    · rcases hm2 with hm2 | hm2
      · exact h.ackUniq m1 hm1 m2 hm2 a ha1 ha2
      · subst hm2; simp at ha2
    · subst hm1; simp at ha1
  · intro m hm
    simp only [Queue.add, List.mem_append, List.mem_singleton] at hm
    rcases hm with hm | hm
    · exact h.ackTries m hm
    · subst hm; simp

theorem inv_get {q : Queue} {s : QState P} (h : Inv s) {t tok : Nat}
    {opts : Option QueueGetOptions} (hf : freshTok s tok = true) :
    Inv (q.get s t opts tok).2 := by
  rw [Queue.get]
  cases hp : pickMin t s.msgs with
  | none => exact h
  | some m =>
    have hmem := pickMin_mem hp
    simp only
    set g := applyGetUpdate t (q.getVisibility opts) tok with hg
    have hgid : ∀ x : Msg P, (g x).id = x.id := by intro x; simp [hg, applyGetUpdate]
    have hfr := freshTok_iff.mp hf
    constructor
    · intro x hx
      rcases mem_updateById hx with h1 | ⟨y, hy, _, hxy⟩
      · exact h.idLt x h1
      · subst hxy
        rw [hgid]
        exact h.idLt y hy
    · rw [map_id_updateById hgid]
      exact h.idNodup
    · intro m1 hm1 m2 hm2 a ha1 ha2
      rcases mem_updateById hm1 with h1 | ⟨y1, hy1, hyi1, hxy1⟩ <;>
        rcases mem_updateById hm2 with h2 | ⟨y2, hy2, hyi2, hxy2⟩
      · exact h.ackUniq m1 h1 m2 h2 a ha1 ha2
      · subst hxy2
        simp only [hg, applyGetUpdate] at ha2
        injection ha2 with ha2
        subst ha2
        exact absurd ha1 (hfr m1 h1)
      · subst hxy1
        simp only [hg, applyGetUpdate] at ha1
        injection ha1 with ha1
        subst ha1
        exact absurd ha2 (hfr m2 h2)
      · subst hxy1; subst hxy2
        rw [hgid, hgid, hyi1, hyi2]
    · intro x hx
      rcases mem_updateById hx with h1 | ⟨y, hy, _, hxy⟩
      · exact h.ackTries x h1
      · subst hxy
        simp [hg, applyGetUpdate]

/-- A `findAndUpdate` whose update keeps `_id`, `ack` and `tries` intact
(this is the case for `ping` and `ack`) preserves the invariant. -/
theorem inv_findAndUpdate {s : QState P} (h : Inv s) {p : Msg P → Bool} {f : Msg P → Msg P}
    (hid : ∀ m, (f m).id = m.id) (hack : ∀ m, (f m).ack = m.ack)
    (htr : ∀ m, (f m).tries = m.tries) :
    Inv ⟨(findAndUpdate p f s.msgs).2, s.nextId⟩ := by
  have corr : ∀ x ∈ (findAndUpdate p f s.msgs).2,
      ∃ y ∈ s.msgs, x.id = y.id ∧ x.ack = y.ack ∧ x.tries = y.tries := by
    intro x hx
    rcases mem_findAndUpdate_snd hx with h1 | ⟨y, hy, hxy⟩
    · exact ⟨x, h1, rfl, rfl, rfl⟩
    · subst hxy
      exact ⟨y, hy, hid y, hack y, htr y⟩
  constructor
  · intro x hx
    rcases corr x hx with ⟨y, hy, hidxy, -, -⟩
    rw [hidxy]
    exact h.idLt y hy
  · rw [map_id_findAndUpdate hid]
    exact h.idNodup
  · intro m1 hm1 m2 hm2 a ha1 ha2
    rcases corr m1 hm1 with ⟨y1, hy1, hid1, hack1, -⟩
    rcases corr m2 hm2 with ⟨y2, hy2, hid2, hack2, -⟩
    rw [hid1, hid2]
    exact h.ackUniq y1 hy1 y2 hy2 a (hack1 ▸ ha1) (hack2 ▸ ha2)
  · intro x hx
    rcases corr x hx with ⟨y, hy, -, hackxy, htrxy⟩
    rw [hackxy, htrxy]
    exact h.ackTries y hy

theorem inv_ping {q : Queue} {s : QState P} (h : Inv s) (t tok : Nat)
    (opts : Option QueuePingOptions) : Inv (q.ping s t tok opts).2 := by
  exact inv_findAndUpdate h (by intro m; rfl) (by intro m; rfl) (by intro m; rfl)

theorem inv_ack {s : QState P} (h : Inv s) (t tok : Nat) :
    Inv (Queue.ack s t tok).2 := by
  exact inv_findAndUpdate h (by intro m; rfl) (by intro m; rfl) (by intro m; rfl)

theorem inv_clean {s : QState P} (h : Inv s) : Inv (Queue.clean s) := by
  have hsub : ∀ x ∈ (Queue.clean s).msgs, x ∈ s.msgs := by
    intro x hx
    exact List.mem_of_mem_filter hx
  constructor
  · intro m hm; exact h.idLt m (hsub m hm)
  · exact List.Nodup.sublist (List.Sublist.map Msg.id (List.filter_sublist s.msgs)) h.idNodup
  · intro m1 hm1 m2 hm2 a ha1 ha2
    exact h.ackUniq m1 (hsub m1 hm1) m2 (hsub m2 hm2) a ha1 ha2
  · intro m hm; exact h.ackTries m (hsub m hm)

theorem step_inv {q : Queue} {s s2 : QState P} (hst : Step q s s2) (h : Inv s) : Inv s2 := by
  cases hst with
  | add t payload opts => exact inv_add h t payload opts
  | get t opts tok hf => exact inv_get h hf
  | ping t tok opts => exact inv_ping h t tok opts
  | ack t tok => exact inv_ack h t tok
  | clean => exact inv_clean h

theorem reachable_inv {q : Queue} {s : QState P} (hr : Reachable q s) : Inv s := by
  induction hr with
  | refl => exact inv_empty
  | tail _ hst ih => exact step_inv hst ih

end Invariant

end MQ

namespace MQ

section GetSpec

variable {P : Type}

theorem get_eq_of_pickMin_none {q : Queue} {s : QState P} {t tok : Nat}
    {opts : Option QueueGetOptions} (hp : pickMin t s.msgs = none) :
    q.get s t opts tok = (none, s) := by
  rw [Queue.get, hp]

theorem get_eq_of_pickMin_some {q : Queue} {s : QState P} {t tok : Nat}
    {opts : Option QueueGetOptions} {m : Msg P} (hp : pickMin t s.msgs = some m) :
    q.get s t opts tok =
      (some ⟨m.id, some tok, m.payload, m.tries + 1⟩,
       { s with msgs := updateById m.id (applyGetUpdate t (q.getVisibility opts) tok) s.msgs }) := by
  rw [Queue.get, hp]
  exact rfl

theorem get_none_iff {q : Queue} {s : QState P} {t tok : Nat} {opts : Option QueueGetOptions} :
    (q.get s t opts tok).1 = none ↔ ∀ m ∈ s.msgs, eligibleFilter t m = false := by
  cases hp : pickMin t s.msgs with
  | none =>
    rw [get_eq_of_pickMin_none hp]
    exact ⟨fun _ => pickMin_eq_none.mp hp, fun _ => rfl⟩
  | some m =>
    rw [get_eq_of_pickMin_some hp]
    constructor
    · intro h; exact Option.noConfusion h
    · intro h
      exact absurd (pickMin_eq_none.mpr h) (by simp [hp])

theorem get_none_state {q : Queue} {s : QState P} {t tok : Nat} {opts : Option QueueGetOptions}
    (h : (q.get s t opts tok).1 = none) : (q.get s t opts tok).2 = s := by
  cases hp : pickMin t s.msgs with
  | none => rw [get_eq_of_pickMin_none hp]
  | some m =>
    rw [get_eq_of_pickMin_some hp] at h
    exact Option.noConfusion h

theorem eq_of_mem_of_id_eq {l : List (Msg P)} (hnd : (l.map Msg.id).Nodup)
    {x y : Msg P} (hx : x ∈ l) (hy : y ∈ l) (hid : x.id = y.id) : x = y := by
  induction l with
  | nil => simp at hx
  | cons a l ih =>
    simp only [List.map_cons, List.nodup_cons] at hnd
    rcases List.mem_cons.mp hx with h1 | h1 <;> rcases List.mem_cons.mp hy with h2 | h2
    · rw [h1, h2]
    · subst h1
      exact absurd (List.mem_map.mpr ⟨y, h2, hid.symm⟩) hnd.1
    · subst h2
      exact absurd (List.mem_map.mpr ⟨x, h1, hid⟩) hnd.1
    · exact ih hnd.2 h1 h2

/-- Decompose a list with pairwise-distinct ids around one of its members. -/
theorem mem_decomp_of_nodup {l : List (Msg P)} (hnd : (l.map Msg.id).Nodup)
    {m : Msg P} (hm : m ∈ l) :
    ∃ l1 l2, l = l1 ++ m :: l2 ∧ ∀ z ∈ l1, z.id ≠ m.id := by
  rcases List.append_of_mem hm with ⟨l1, l2, hl⟩
  refine ⟨l1, l2, hl, ?_⟩
  subst hl
  intro z hz hzi
  rw [List.map_append, List.nodup_append] at hnd
  exact hnd.2.2 (List.mem_map.mpr ⟨z, hz, rfl⟩) (by simp [hzi])

/-- What a successful `get` did: it picked the `{tries: 1, _id: 1}`-least
eligible document, returned its post-update external view, and rewrote
exactly that document in place. -/
theorem get_some_spec {q : Queue} {s : QState P} {t tok : Nat} {opts : Option QueueGetOptions}
    {r : GetResult P} (h : (q.get s t opts tok).1 = some r)
    (hnd : (s.msgs.map Msg.id).Nodup) :
    ∃ m l1 l2, s.msgs = l1 ++ m :: l2 ∧ eligibleFilter t m = true ∧
      (∀ x ∈ s.msgs, eligibleFilter t x = true → keyLt x m = false) ∧
      r = ⟨m.id, some tok, m.payload, m.tries + 1⟩ ∧
      (q.get s t opts tok).2 =
        ⟨l1 ++ applyGetUpdate t (q.getVisibility opts) tok m :: l2, s.nextId⟩ := by
  cases hp : pickMin t s.msgs with
  | none =>
    rw [get_eq_of_pickMin_none hp] at h
    exact Option.noConfusion h
  | some m =>
    rw [get_eq_of_pickMin_some hp] at h
    have hr := Option.some.inj h
    have hmem := pickMin_mem hp
    rcases mem_decomp_of_nodup hnd hmem.1 with ⟨l1, l2, hl, hl1⟩
    refine ⟨m, l1, l2, hl, hmem.2, pickMin_min hp, hr.symm, ?_⟩
    rw [get_eq_of_pickMin_some hp]
    have : updateById m.id (applyGetUpdate t (q.getVisibility opts) tok) s.msgs =
        l1 ++ applyGetUpdate t (q.getVisibility opts) tok m :: l2 := by
      rw [hl]
      exact updateById_append hl1 rfl
    rw [this]

/-- A `get` never disturbs the id multiset: handy for chaining claims. -/
theorem get_map_id {q : Queue} {s : QState P} (t tok : Nat) (opts : Option QueueGetOptions) :
    ((q.get s t opts tok).2.msgs.map Msg.id) = s.msgs.map Msg.id := by
  cases hp : pickMin t s.msgs with
  | none => rw [get_eq_of_pickMin_none hp]
  | some m =>
    rw [get_eq_of_pickMin_some hp]
    exact @map_id_updateById P m.id (applyGetUpdate t (q.getVisibility opts) tok)
      (fun x => rfl) s.msgs

theorem get_nextId {q : Queue} {s : QState P} (t tok : Nat) (opts : Option QueueGetOptions) :
    (q.get s t opts tok).2.nextId = s.nextId := by
  cases hp : pickMin t s.msgs with
  | none => rw [get_eq_of_pickMin_none hp]
  | some m => rw [get_eq_of_pickMin_some hp]

end GetSpec

end MQ

namespace MQ

section CountLemmas

variable {P : Type}

theorem counts_aux (t : Nat) (a : Msg P) :
    (if eligibleFilter t a = true then 1 else 0) + (if inFlightFilter t a = true then 1 else 0) +
      (if a.deleted.isSome = true then 1 else 0) ≤ 1 := by
  simp only [eligibleFilter, inFlightFilter, Bool.and_eq_true, decide_eq_true_eq,
    Option.isNone_iff_eq_none, Option.isSome_iff_ne_none]
  split_ifs <;> simp_all <;> omega

theorem counts_le (t : Nat) (l : List (Msg P)) :
    l.countP (eligibleFilter t) + l.countP (inFlightFilter t) +
      l.countP (fun m => m.deleted.isSome) ≤ l.length := by
  induction l with
  | nil => simp
  | cons a l ih =>
    have haux := counts_aux t a
    simp only [List.countP_cons, List.length_cons]
    omega

theorem counts_lt (t : Nat) {l : List (Msg P)} {m : Msg P} (hm : m ∈ l)
    (h1 : eligibleFilter t m = false) (h2 : inFlightFilter t m = false)
    (h3 : m.deleted.isSome = false) :
    l.countP (eligibleFilter t) + l.countP (inFlightFilter t) +
      l.countP (fun x => x.deleted.isSome) < l.length := by
  induction l with
  | nil => simp at hm
  | cons a l ih =>
    simp only [List.countP_cons, List.length_cons]
    rcases List.mem_cons.mp hm with h | h
    · subst h
      have := counts_le t l
      simp [h1, h2, h3]
      omega
    · have := ih h
      have haux := counts_aux t a
      omega

theorem size_eq_countP (s : QState P) (t : Nat) :
    Queue.size s t = s.msgs.countP (eligibleFilter t) := by
  rw [Queue.size, List.countP_eq_length_filter]

theorem inFlight_eq_countP (s : QState P) (t : Nat) :
    Queue.inFlight s t = s.msgs.countP (inFlightFilter t) := by
  rw [Queue.inFlight, List.countP_eq_length_filter]

theorem done_eq_countP (s : QState P) :
    Queue.done s = s.msgs.countP (fun m => m.deleted.isSome) := by
  rw [Queue.done, List.countP_eq_length_filter]

end CountLemmas

end MQ

namespace MQ

section KeyConv

variable {P : Type}

theorem keyLt_false_iff {a b : Msg P} :
    keyLt a b = false ↔ b.tries < a.tries ∨ (b.tries = a.tries ∧ b.id ≤ a.id) := by
  simp only [keyLt, Bool.or_eq_false_iff, Bool.and_eq_false_iff, decide_eq_false_iff_not,
    beq_eq_false_iff_ne, ne_eq]
  omega

theorem pickMin_append_single {t : Nat} {l : List (Msg P)} {m : Msg P}
    (h : ∀ x ∈ l, eligibleFilter t x = false) (hm : eligibleFilter t m = true) :
    pickMin t (l ++ [m]) = some m := by
  induction l with
  | nil => simp [pickMin, pickBetter, hm]
  | cons a l ih =>
    rw [List.cons_append, pickMin, ih (fun x hx => h x (List.mem_cons_of_mem a hx)), pickBetter]
    rw [if_neg (by simp [h a (List.mem_cons_self a l)])]

end KeyConv

/-- C3: `add` appends exactly one new message with `visible = now + delay`
(the delay resolving as call option, else queue default, else 0), with no
`ack`, zero `tries` and no `deleted`, returns the store-assigned id, and
leaves every existing message unmodified. -/
theorem claim_c3_add_inserts {P : Type} (qopts : Option QueueOptions)
    (aopts : Option QueueAddOptions) (s : QState P) (t : Nat) (payload : P) :
    (Queue.ofOpts qopts).add s t payload aopts =
      (s.nextId,
       { msgs := s.msgs ++
           [{ id := s.nextId,
              visible := t + ((aopts.bind QueueAddOptions.delay).getD
                (((qopts.getD {}).delay).getD 0)),
              payload := payload, ack := none, tries := 0, deleted := none }]
         nextId := s.nextId + 1 }) := by
  have hb : ∀ d : Nat, (if d ≠ 0 then t + d else t) = t + d := by
    intro d; cases d <;> simp
  simp only [Queue.add, Queue.addDelay, Queue.ofOpts, hb]

/-- C8: `clean` (purge-completed) is idempotent — a second sweep with no
intervening completions deletes nothing, so `total` and `done` are unchanged
by it — and it touches only messages whose `deleted` timestamp is set. -/
theorem claim_c8_clean_idempotent {P : Type} (s : QState P) :
    Queue.clean (Queue.clean s) = Queue.clean s ∧
    Queue.total (Queue.clean (Queue.clean s)) = Queue.total (Queue.clean s) ∧
    Queue.done (Queue.clean (Queue.clean s)) = Queue.done (Queue.clean s) ∧
    (∀ m ∈ s.msgs, m.deleted = none → m ∈ (Queue.clean s).msgs) ∧
    (∀ m ∈ s.msgs, m ∉ (Queue.clean s).msgs → m.deleted ≠ none) := by
  have hidem : Queue.clean (Queue.clean s) = Queue.clean s := by
    simp [Queue.clean, List.filter_filter]
  refine ⟨hidem, by rw [hidem], by rw [hidem], ?_, ?_⟩
  · intro m hm hdel
    simp [Queue.clean, List.mem_filter, hm, hdel]
  · intro m hm hnot hdel
    exact hnot (by simp [Queue.clean, List.mem_filter, hm, hdel])

/-- C10: a delayed, never-claimed, uncompleted message (`visible_at > now`,
no `ack`, no `deleted`) is counted by `total` but by neither `size` nor
`inFlight`, so `size + inFlight + done` is strictly below `total`. -/
theorem claim_c10_delayed_uncounted {P : Type} (s : QState P) (t : Nat) (m : Msg P)
    (hm : m ∈ s.msgs) (hv : t < m.visible) (ha : m.ack = none) (hd : m.deleted = none) :
    eligibleFilter t m = false ∧ inFlightFilter t m = false ∧
    Queue.size s t + Queue.inFlight s t + Queue.done s < Queue.total s := by
  have h1 : eligibleFilter t m = false := by
    simp [eligibleFilter, hd]
    omega
  have h2 : inFlightFilter t m = false := by
    simp [inFlightFilter, ha]
  have h3 : m.deleted.isSome = false := by simp [hd]
  refine ⟨h1, h2, ?_⟩
  rw [size_eq_countP, inFlight_eq_countP, done_eq_countP, Queue.total]
  exact counts_lt t hm h1 h2 h3

/-- The concrete delayed state used to witness C10. -/
theorem claim_c10_witness :
    eligibleFilter 10 (Msg.mk 0 15 (9 : Nat) none 0 none) = false ∧
    inFlightFilter 10 (Msg.mk 0 15 (9 : Nat) none 0 none) = false ∧
    Queue.size (QState.mk [Msg.mk 0 15 (9 : Nat) none 0 none] 1) 10 +
      Queue.inFlight (QState.mk [Msg.mk 0 15 (9 : Nat) none 0 none] 1) 10 +
      Queue.done (QState.mk [Msg.mk 0 15 (9 : Nat) none 0 none] 1) <
      Queue.total (QState.mk [Msg.mk 0 15 (9 : Nat) none 0 none] 1) := by
  exact claim_c10_delayed_uncounted (QState.mk [Msg.mk 0 15 (9 : Nat) none 0 none] 1) 10
    (Msg.mk 0 15 (9 : Nat) none 0 none) (by decide) (by decide) (by decide) (by decide)

end MQ

namespace MQ

/-- C2: `get` (claim) either finds no eligible message — and then returns
the explicit empty result with the state untouched — or atomically rewrites
the unique `{tries, insertion order}`-least eligible message: `tries`
incremented, the fresh token installed, `visible` pushed to `now +
visibility` (call override, else configured default, else 30), returning
its id, token, payload and post-increment try count. -/
theorem claim_c2_get_claims_least {P : Type} (qopts : Option QueueOptions)
    (gopts : Option QueueGetOptions) (s : QState P) (t tok : Nat)
    (hnd : (s.msgs.map Msg.id).Nodup) :
    ((Queue.ofOpts qopts).get s t gopts tok = (none, s) ↔
      ∀ m ∈ s.msgs, eligibleFilter t m = false) ∧
    (∀ r : GetResult P, ((Queue.ofOpts qopts).get s t gopts tok).1 = some r →
      ∃ m l1 l2, s.msgs = l1 ++ m :: l2 ∧ eligibleFilter t m = true ∧
        (∀ x ∈ s.msgs, eligibleFilter t x = true →
          m.tries < x.tries ∨ (m.tries = x.tries ∧ m.id ≤ x.id)) ∧
        r = ⟨m.id, some tok, m.payload, m.tries + 1⟩ ∧
        ((Queue.ofOpts qopts).get s t gopts tok).2 =
          ⟨l1 ++ { m with
                     tries := m.tries + 1, ack := some tok,
                     visible := t + ((gopts.bind QueueGetOptions.visibility).getD
                       (((qopts.getD {}).visibility).getD 30)) } :: l2,
           s.nextId⟩) := by
  constructor
  · constructor
    · intro h
      exact get_none_iff.mp (by rw [h])
    · intro h
      exact get_eq_of_pickMin_none (pickMin_eq_none.mpr h)
  · intro r hr
    rcases get_some_spec hr hnd with ⟨m, l1, l2, hl, hel, hmin, hres, hst⟩
    refine ⟨m, l1, l2, hl, hel, ?_, hres, hst⟩
    intro x hx hex
    exact keyLt_false_iff.mp (hmin x hx hex)

/-- The empty queue makes C2's drained branch concrete. -/
theorem claim_c2_witness :
    (Queue.ofOpts none).get (QState.empty Nat) 0 none 5 = (none, QState.empty Nat) := by
  exact (claim_c2_get_claims_least none none (QState.empty Nat) 0 5 (by decide)).1.mpr
    (by intro m hm; simp [QState.empty] at hm)

/-- C4: adding a payload with zero delay and immediately claiming, with no
other eligible message present, hands back that payload with `tries = 1`. -/
theorem claim_c4_add_get_roundtrip {P : Type} (qopts : Option QueueOptions)
    (gopts : Option QueueGetOptions) (s : QState P) (t tok : Nat) (payload : P)
    (h : ∀ m ∈ s.msgs, eligibleFilter t m = false) :
    ∃ r : GetResult P,
      ((Queue.ofOpts qopts).get
        ((Queue.ofOpts qopts).add s t payload (some { delay := some 0 })).2
        t gopts tok).1 = some r ∧
      r.payload = payload ∧ r.tries = 1 := by
  have hp : pickMin t
      ((Queue.ofOpts qopts).add s t payload (some { delay := some 0 })).2.msgs =
      some ⟨s.nextId, t, payload, none, 0, none⟩ := by
    show pickMin t (s.msgs ++ [⟨s.nextId, t, payload, none, 0, none⟩]) = _
    exact pickMin_append_single h (by simp [eligibleFilter])
  refine ⟨⟨s.nextId, some tok, payload, 1⟩, ?_, rfl, rfl⟩
  rw [get_eq_of_pickMin_some hp]

/-- An empty queue, one `add`, one `get`, makes C4 concrete. -/
theorem claim_c4_witness :
    ∃ r : GetResult Nat,
      ((Queue.ofOpts none).get
        ((Queue.ofOpts none).add (QState.empty Nat) 3 42 (some { delay := some 0 })).2
        3 none 77).1 = some r ∧
      r.payload = 42 ∧ r.tries = 1 := by
  exact claim_c4_add_get_roundtrip none none (QState.empty Nat) 3 77 42
    (by intro m hm; simp [QState.empty] at hm)

end MQ

namespace MQ

/-- C6: `ping` (renew) and `ack` (complete) fail — the thrown
`Unidentified ack`, the spec's `UnknownOrExpiredLease`, modelled as `none`
— exactly when no message has `ack = tok`, `deleted` unset and
`visible > now`; a failure mutates nothing.  When a match exists, `ping`
rewrites only its `visible` to `now + visibility` and `ack` only its
`deleted` to `now`, each returning the matched message's id. -/
theorem claim_c6_lease_errors {P : Type} (q : Queue) (s : QState P) (t tok : Nat)
    (popts : Option QueuePingOptions) :
    ((q.ping s t tok popts).1 = none ↔ ∀ m ∈ s.msgs, leaseFilter t tok m = false) ∧
    ((q.ping s t tok popts).1 = none → (q.ping s t tok popts).2 = s) ∧
    ((Queue.ack s t tok).1 = none ↔ ∀ m ∈ s.msgs, leaseFilter t tok m = false) ∧
    ((Queue.ack s t tok).1 = none → (Queue.ack s t tok).2 = s) ∧
    (∀ i : Nat, (q.ping s t tok popts).1 = some i →
      ∃ l1 m l2, s.msgs = l1 ++ m :: l2 ∧ leaseFilter t tok m = true ∧ i = m.id ∧
        (q.ping s t tok popts).2 =
          ⟨l1 ++ { m with visible := t + q.pingVisibility popts } :: l2, s.nextId⟩) ∧
    (∀ i : Nat, (Queue.ack s t tok).1 = some i →
      ∃ l1 m l2, s.msgs = l1 ++ m :: l2 ∧ leaseFilter t tok m = true ∧ i = m.id ∧
        (Queue.ack s t tok).2 = ⟨l1 ++ { m with deleted := some t } :: l2, s.nextId⟩) := by
  refine ⟨?_, ?_, ?_, ?_, ?_, ?_⟩
  · rw [Queue.ping]
    simp only [Option.map_eq_none']
    exact findAndUpdate_fst_none_iff
  · intro h
    rw [Queue.ping] at h ⊢
    simp only [Option.map_eq_none'] at h
    have := findAndUpdate_none_snd h
    simp only [this]
  · rw [Queue.ack]
    simp only [Option.map_eq_none']
    exact findAndUpdate_fst_none_iff
  · intro h
    rw [Queue.ack] at h ⊢
    simp only [Option.map_eq_none'] at h
    have := findAndUpdate_none_snd h
    simp only [this]
  · intro i hi
    rw [Queue.ping] at hi ⊢
    simp only [Option.map_eq_some'] at hi
    rcases hi with ⟨y, hy, hyi⟩
    rcases findAndUpdate_some_spec hy with ⟨l1, m, l2, hl, hm, _, hym, hsnd⟩
    refine ⟨l1, m, l2, hl, hm, ?_, ?_⟩
    · rw [← hyi, hym]
    · simp only [hsnd]
  · intro i hi
    rw [Queue.ack] at hi ⊢
    simp only [Option.map_eq_some'] at hi
    rcases hi with ⟨y, hy, hyi⟩
    rcases findAndUpdate_some_spec hy with ⟨l1, m, l2, hl, hm, _, hym, hsnd⟩
    refine ⟨l1, m, l2, hl, hm, ?_, ?_⟩
    · rw [← hyi, hym]
    · simp only [hsnd]

/-- A live lease renewed at t = 5 and an expired one refused at t = 30 make
C6 concrete. -/
theorem claim_c6_witness :
    ((Queue.ofOpts none).ping
        (QState.mk [Msg.mk 0 30 (7 : Nat) (some 1) 1 none] 1) 30 1 none).1 = none ∧
    ((Queue.ofOpts none).ping
        (QState.mk [Msg.mk 0 30 (7 : Nat) (some 1) 1 none] 1) 30 1 none).2 =
      QState.mk [Msg.mk 0 30 (7 : Nat) (some 1) 1 none] 1 := by
  have h := claim_c6_lease_errors (Queue.ofOpts none)
    (QState.mk [Msg.mk 0 30 (7 : Nat) (some 1) 1 none] 1) 30 1 none
  have hnone : ((Queue.ofOpts none).ping
      (QState.mk [Msg.mk 0 30 (7 : Nat) (some 1) 1 none] 1) 30 1 none).1 = none :=
    h.1.mpr (by decide)
  exact ⟨hnone, h.2.1 hnone⟩

end MQ

namespace MQ

/-- C1: in every reachable state, two distinct in-flight messages never
carry the same lease token — the at-most-one-consumer-per-message
invariant, given that every successful claim installs a token distinct
from all stored tokens (the `freshTok` premise of the claim step, i.e. the
sparse unique index on `ack` plus 128-bit random generation). -/
theorem claim_c1_lease_exclusive {P : Type} (q : Queue) (s : QState P) (t : Nat)
    (hr : Reachable q s) (m1 m2 : Msg P) (hm1 : m1 ∈ s.msgs) (hm2 : m2 ∈ s.msgs)
    (hne : m1.id ≠ m2.id) (hf1 : inFlightFilter t m1 = true)
    (hf2 : inFlightFilter t m2 = true) : m1.ack ≠ m2.ack := by
  intro heq
  have hinv := reachable_inv hr
  have hs1 : m1.ack.isSome = true := by
    simp only [inFlightFilter, Bool.and_eq_true] at hf1
    exact hf1.1.1
  rcases Option.isSome_iff_exists.mp hs1 with ⟨a, ha⟩
  exact hne (hinv.ackUniq m1 hm1 m2 hm2 a ha (heq ▸ ha))

/-- A reachable state with two concurrently claimed messages (two adds,
two claims with fresh tokens 100 and 200) realises C1's conclusion. -/
theorem claim_c1_witness :
    (Msg.mk 0 30 (10 : Nat) (some 100) 1 none).ack ≠
      (Msg.mk 1 30 (20 : Nat) (some 200) 1 none).ack := by
  have h0 : Relation.ReflTransGen (Step (Queue.ofOpts none))
      (QState.empty Nat) (QState.empty Nat) := Relation.ReflTransGen.refl
  have h1 := h0.tail (Step.add (QState.empty Nat) 0 (10 : Nat) none)
  have h2 := h1.tail (Step.add _ 0 (20 : Nat) none)
  have h3 := h2.tail (Step.get _ 0 none 100 (by decide))
  have h4 := h3.tail (Step.get _ 0 none 200 (by decide))
  exact claim_c1_lease_exclusive (Queue.ofOpts none) _ 5 h4
    (Msg.mk 0 30 (10 : Nat) (some 100) 1 none) (Msg.mk 1 30 (20 : Nat) (some 200) 1 none)
    (by decide) (by decide) (by decide) (by decide) (by decide)

/-- C9 fails on the code: `get` installs `ack` but nothing ever unsets it,
so once the lease expires the token is still stored while the message is
back to available.  Concretely: add at 0, claim at 0 with the default
30-second visibility, look at time 30 — the token is present and the
message is no longer leased. -/
theorem claim_c9_counterexample :
    Reachable (Queue.ofOpts none)
      ((Queue.ofOpts none).get
        ((Queue.ofOpts none).add (QState.empty Nat) 0 (7 : Nat) none).2 0 none 1).2 ∧
    ∃ m ∈ ((Queue.ofOpts none).get
        ((Queue.ofOpts none).add (QState.empty Nat) 0 (7 : Nat) none).2 0 none 1).2.msgs,
      m.ack.isSome = true ∧ inFlightFilter 30 m = false ∧ m.deleted = none := by
  constructor
  · exact Relation.ReflTransGen.tail
      (Relation.ReflTransGen.tail Relation.ReflTransGen.refl
        (Step.add (QState.empty Nat) 0 (7 : Nat) none))
      (Step.get _ 0 none 1 (by decide))
  · exact ⟨Msg.mk 0 30 (7 : Nat) (some 1) 1 none, by decide, by decide, by decide, by decide⟩

/-- C9 as amended: a lease token, once installed, persists beyond lease
expiry and completion; in every reachable state a message carries a token
iff it has been claimed at least once (`tries` is nonzero), rather than
only while it is checked out. -/
theorem claim_c9_token_iff_tried {P : Type} (q : Queue) (s : QState P)
    (hr : Reachable q s) : ∀ m ∈ s.msgs, (m.ack = none ↔ m.tries = 0) :=
  fun m hm => (reachable_inv hr).ackTries m hm

/-- The claimed message of `claim_c9_counterexample` instantiates the
amended C9. -/
theorem claim_c9_witness :
    (Msg.mk 0 30 (7 : Nat) (some 1) 1 none).ack = none ↔
      (Msg.mk 0 30 (7 : Nat) (some 1) 1 none).tries = 0 := by
  have hr : Reachable (Queue.ofOpts none)
      ((Queue.ofOpts none).get
        ((Queue.ofOpts none).add (QState.empty Nat) 0 (7 : Nat) none).2 0 none 1).2 :=
    Relation.ReflTransGen.tail
      (Relation.ReflTransGen.tail Relation.ReflTransGen.refl
        (Step.add (QState.empty Nat) 0 (7 : Nat) none))
      (Step.get _ 0 none 1 (by decide))
  exact claim_c9_token_iff_tried (Queue.ofOpts none) _ hr
    (Msg.mk 0 30 (7 : Nat) (some 1) 1 none) (by decide)

end MQ

namespace MQ

section Completion

variable {P : Type}

/-- Once a message id belongs only to completed documents (and is below the
id counter), that stays true forever. -/
def deletedStays (i : Nat) (s : QState P) : Prop :=
  (∀ m ∈ s.msgs, m.id = i → m.deleted ≠ none) ∧ i < s.nextId

theorem step_deletedStays {q : Queue} {s s2 : QState P} {i : Nat}
    (hst : Step q s s2) (h : deletedStays i s) : deletedStays i s2 := by
  cases hst with
  | add t payload opts =>
    constructor
    · intro m hm hmi
      simp only [Queue.add, List.mem_append, List.mem_singleton] at hm
      rcases hm with hm | hm
      · exact h.1 m hm hmi
      · subst hm
        exfalso
        have hni : s.nextId = i := hmi
        have hlt := h.2
        omega
    · exact Nat.lt_succ_of_lt h.2
  | get t opts tok hf =>
    cases hp : pickMin t s.msgs with
    | none =>
      rw [get_eq_of_pickMin_none hp]
      exact h
    | some m =>
      rw [get_eq_of_pickMin_some hp]
      refine ⟨?_, h.2⟩
      intro x hx hxi
      rcases mem_updateById hx with h1 | ⟨y, hy, _, hxy⟩
      · exact h.1 x h1 hxi
      · subst hxy
        exact h.1 y hy hxi
  | ping t tok opts =>
    refine ⟨?_, h.2⟩
    intro x hx hxi
    rcases mem_findAndUpdate_snd hx with h1 | ⟨y, hy, hxy⟩
    · exact h.1 x h1 hxi
    · subst hxy
      exact h.1 y hy hxi
  | ack t tok =>
    refine ⟨?_, h.2⟩
    intro x hx hxi
    rcases mem_findAndUpdate_snd hx with h1 | ⟨y, hy, hxy⟩
    · exact h.1 x h1 hxi
    · subst hxy
      simp
  | clean =>
    refine ⟨?_, h.2⟩
    intro x hx hxi
    exact h.1 x (List.mem_of_mem_filter hx) hxi

theorem reachableFrom_deletedStays {q : Queue} {s s2 : QState P} {i : Nat}
    (h : ReachableFrom q s s2) (hd : deletedStays i s) : deletedStays i s2 := by
  induction h with
  | refl => exact hd
  | tail _ hst ih => exact step_deletedStays hst ih

theorem get_ne_of_deleted {q : Queue} {s : QState P} {t tok i : Nat}
    {opts : Option QueueGetOptions} {r : GetResult P}
    (hget : (q.get s t opts tok).1 = some r)
    (hd : ∀ m ∈ s.msgs, m.id = i → m.deleted ≠ none) : r.id ≠ i := by
  cases hp : pickMin t s.msgs with
  | none =>
    rw [get_eq_of_pickMin_none hp] at hget
    exact Option.noConfusion hget
  | some m =>
    rw [get_eq_of_pickMin_some hp] at hget
    have hrm := Option.some.inj hget
    have hmem := pickMin_mem hp
    intro hri
    rw [← hrm] at hri
    have hdel := hd m hmem.1 hri
    have hnone : m.deleted = none := by
      have he := hmem.2
      simp only [eligibleFilter, Bool.and_eq_true, Option.isNone_iff_eq_none] at he
      exact he.1
    exact hdel hnone

end Completion

/-- C5: a successful `ack` (complete) with a live token sets `deleted` to
the current time while keeping the record in place — `done` gains exactly
one, `total` is unchanged — and no later `get`, whatever operations
intervene, ever returns that message's id again. -/
theorem claim_c5_complete_is_final {P : Type} (q : Queue) (s : QState P) (t tok i : Nat)
    (hr : Reachable q s) (hs : (Queue.ack s t tok).1 = some i) :
    Queue.done (Queue.ack s t tok).2 = Queue.done s + 1 ∧
    Queue.total (Queue.ack s t tok).2 = Queue.total s ∧
    (∃ m ∈ (Queue.ack s t tok).2.msgs, m.id = i ∧ m.deleted = some t) ∧
    (∀ s2 : QState P, ReachableFrom q (Queue.ack s t tok).2 s2 →
      ∀ (t2 tok2 : Nat) (gopts : Option QueueGetOptions) (r : GetResult P),
        (q.get s2 t2 gopts tok2).1 = some r → r.id ≠ i) := by
  have hinv := reachable_inv hr
  rw [Queue.ack] at hs
  simp only [Option.map_eq_some'] at hs
  rcases hs with ⟨y, hy, hyi⟩
  rcases findAndUpdate_some_spec hy with ⟨l1, m, l2, hl, hm, _, hym, hsnd⟩
  have him : i = m.id := by rw [← hyi, hym]
  have hmdel : m.deleted = none := by
    simp only [leaseFilter, Bool.and_eq_true, Option.isNone_iff_eq_none] at hm
    exact hm.2
  have hstate : (Queue.ack s t tok).2 =
      ⟨l1 ++ { m with deleted := some t } :: l2, s.nextId⟩ := by
    rw [Queue.ack]
    simp only [hsnd]
  have hmmem : m ∈ s.msgs := by rw [hl]; simp
  refine ⟨?_, ?_, ?_, ?_⟩
  · rw [hstate, done_eq_countP, done_eq_countP, hl]
    simp [List.countP_append, List.countP_cons, hmdel]
    omega
  · rw [hstate, Queue.total, Queue.total, hl]
    simp
  · refine ⟨{ m with deleted := some t }, ?_, by simp [him], rfl⟩
    rw [hstate]
    simp
  · intro s2 hreach t2 tok2 gopts r hget
    have hstays : deletedStays i (Queue.ack s t tok).2 := by
      constructor
      · intro x hx hxi
        rw [hstate] at hx
        simp only [List.mem_append, List.mem_cons] at hx
        have hmapnd : ((l1 ++ m :: l2).map Msg.id).Nodup := by
          rw [← hl]; exact hinv.idNodup
        rw [List.map_append, List.map_cons, List.nodup_append] at hmapnd
        rcases hx with hx | hx | hx
        · exfalso
          exact hmapnd.2.2 (List.mem_map.mpr ⟨x, hx, rfl⟩)
            (by simp [hxi, him])
        · subst hx
          simp
        · exfalso
          have := (List.nodup_cons.mp hmapnd.2.1).1
          exact this (List.mem_map.mpr ⟨x, hx, by rw [hxi, him]⟩)
      · rw [hstate]
        exact him ▸ hinv.idLt m hmmem
    have hstays2 := reachableFrom_deletedStays hreach hstays
    exact get_ne_of_deleted hget hstays2.1

/-- The add → claim → complete run at times 0, 0, 5 makes C5 concrete. -/
theorem claim_c5_witness :
    ∃ m ∈ (Queue.ack
        ((Queue.ofOpts none).get
          ((Queue.ofOpts none).add (QState.empty Nat) 0 (7 : Nat) none).2
          0 none 1).2 5 1).2.msgs,
      m.id = 0 ∧ m.deleted = some 5 := by
  have hr : Reachable (Queue.ofOpts none)
      ((Queue.ofOpts none).get
        ((Queue.ofOpts none).add (QState.empty Nat) 0 (7 : Nat) none).2 0 none 1).2 :=
    Relation.ReflTransGen.tail
      (Relation.ReflTransGen.tail Relation.ReflTransGen.refl
        (Step.add (QState.empty Nat) 0 (7 : Nat) none))
      (Step.get _ 0 none 1 (by decide))
  exact (claim_c5_complete_is_final (Queue.ofOpts none) _ 5 1 0 hr (by decide)).2.2.1

end MQ

namespace MQ

/-- C7: when a claimed message's lease elapses with no `renew`/`complete`,
the message is eligible again with no explicit transition; a later `get`
that returns it reports `tries` exactly one above the prior claim's count,
and once it does (with a positive visibility) no further `get` at that
instant can return the same message. -/
theorem claim_c7_expiry_reclaim {P : Type} (q : Queue) (s : QState P)
    (t t2 tok tok2 : Nat) (gopts gopts2 : Option QueueGetOptions)
    (r r2 : GetResult P) (hr : Reachable q s)
    (hget : (q.get s t gopts tok).1 = some r)
    (hexp : t + q.getVisibility gopts ≤ t2) :
    (∃ m ∈ (q.get s t gopts tok).2.msgs,
      m.id = r.id ∧ m.tries = r.tries ∧ eligibleFilter t2 m = true) ∧
    ((q.get (q.get s t gopts tok).2 t2 gopts2 tok2).1 = some r2 → r2.id = r.id →
      r2.tries = r.tries + 1) ∧
    ((q.get (q.get s t gopts tok).2 t2 gopts2 tok2).1 = some r2 → r2.id = r.id →
      0 < q.getVisibility gopts2 →
      ∀ (tok3 : Nat) (gopts3 : Option QueueGetOptions) (r3 : GetResult P),
        (q.get (q.get (q.get s t gopts tok).2 t2 gopts2 tok2).2 t2 gopts3 tok3).1 = some r3 →
        r3.id ≠ r.id) := by
  have hnd : (s.msgs.map Msg.id).Nodup := (reachable_inv hr).idNodup
  rcases get_some_spec hget hnd with ⟨m, l1, l2, hl, hel, _, hres, hst⟩
  have hmdel : m.deleted = none := by
    simp only [eligibleFilter, Bool.and_eq_true, Option.isNone_iff_eq_none] at hel
    exact hel.1
  have hgm : applyGetUpdate t (q.getVisibility gopts) tok m ∈ (q.get s t gopts tok).2.msgs := by
    rw [hst]; simp
  have hgel : eligibleFilter t2 (applyGetUpdate t (q.getVisibility gopts) tok m) = true := by
    simp only [applyGetUpdate, eligibleFilter, hmdel, Option.isNone_none, Bool.true_and,
      decide_eq_true_eq]
    exact hexp
  have hnd1 : ((q.get s t gopts tok).2.msgs.map Msg.id).Nodup := by
    rw [get_map_id]; exact hnd
  refine ⟨?_, ?_, ?_⟩
  · exact ⟨applyGetUpdate t (q.getVisibility gopts) tok m, hgm,
      by rw [hres]; rfl, by rw [hres]; rfl, hgel⟩
  · intro hget2 hid2
    rcases get_some_spec hget2 hnd1 with ⟨m2, l1b, l2b, hlb, _, _, hres2, _⟩
    have hm2mem : m2 ∈ (q.get s t gopts tok).2.msgs := by rw [hlb]; simp
    have hm2id : m2.id = (applyGetUpdate t (q.getVisibility gopts) tok m).id := by
      have : r2.id = m2.id := by rw [hres2]
      rw [applyGetUpdate]
      simp only
      rw [← this, hid2, hres]
    have hm2eq : m2 = applyGetUpdate t (q.getVisibility gopts) tok m :=
      eq_of_mem_of_id_eq hnd1 hm2mem hgm hm2id
    rw [hres2, hm2eq, hres]
    rfl
  · intro hget2 hid2 hpos tok3 gopts3 r3 hget3 hr3
    rcases get_some_spec hget2 hnd1 with ⟨m2, l1b, l2b, hlb, _, _, hres2, hst2⟩
    have hm2mem : m2 ∈ (q.get s t gopts tok).2.msgs := by rw [hlb]; simp
    have hm2id : m2.id = (applyGetUpdate t (q.getVisibility gopts) tok m).id := by
      have : r2.id = m2.id := by rw [hres2]
      rw [applyGetUpdate]
      simp only
      rw [← this, hid2, hres]
    have hm2eq : m2 = applyGetUpdate t (q.getVisibility gopts) tok m :=
      eq_of_mem_of_id_eq hnd1 hm2mem hgm hm2id
    have hnd2 : (((q.get (q.get s t gopts tok).2 t2 gopts2 tok2).2.msgs).map Msg.id).Nodup := by
      rw [get_map_id, get_map_id]; exact hnd
    rcases get_some_spec hget3 hnd2 with ⟨m3, l1c, l2c, hlc, hel3, _, hres3, _⟩
    have hm3mem : m3 ∈ (q.get (q.get s t gopts tok).2 t2 gopts2 tok2).2.msgs := by
      rw [hlc]; simp
    have hg2mem : applyGetUpdate t2 (q.getVisibility gopts2) tok2 m2 ∈
        (q.get (q.get s t gopts tok).2 t2 gopts2 tok2).2.msgs := by
      rw [hst2]; simp
    have hm3id : m3.id = (applyGetUpdate t2 (q.getVisibility gopts2) tok2 m2).id := by
      have h1 : r3.id = m3.id := by rw [hres3]
      have h2 : (applyGetUpdate t2 (q.getVisibility gopts2) tok2 m2).id = m2.id := rfl
      rw [h2, ← h1, hr3, ← hid2, hres2]
    have hm3eq : m3 = applyGetUpdate t2 (q.getVisibility gopts2) tok2 m2 :=
      eq_of_mem_of_id_eq hnd2 hm3mem hg2mem hm3id
    have : eligibleFilter t2 (applyGetUpdate t2 (q.getVisibility gopts2) tok2 m2) = false := by
      simp only [applyGetUpdate, eligibleFilter, Bool.and_eq_false_iff, decide_eq_false_iff_not]
      right
      omega
    rw [hm3eq] at hel3
    exact absurd hel3 (by simp [this])

/-- The add, claim at 0, lease expiry at 30, reclaim with token 2 run makes
C7 concrete. -/
theorem claim_c7_witness :
    ∃ m ∈ ((Queue.ofOpts none).get
        ((Queue.ofOpts none).add (QState.empty Nat) 0 (7 : Nat) none).2 0 none 1).2.msgs,
      m.id = 0 ∧ m.tries = 1 ∧ eligibleFilter 30 m = true := by
  have hr : Reachable (Queue.ofOpts none)
      ((Queue.ofOpts none).add (QState.empty Nat) 0 (7 : Nat) none).2 :=
    Relation.ReflTransGen.tail Relation.ReflTransGen.refl
      (Step.add (QState.empty Nat) 0 (7 : Nat) none)
  have h := claim_c7_expiry_reclaim (Queue.ofOpts none) _ 0 30 1 2 none none
    (GetResult.mk 0 (some 1) (7 : Nat) 1) (GetResult.mk 0 (some 2) (7 : Nat) 2)
    hr (by decide) (by decide)
  exact h.1

end MQ
